import Mathlib

/-!
Verification of the message-routing core of the nanoclaw repository.

The embedding covers `src/llm-router.ts` (classifier and dispatcher) and
`src/ollama-client.ts` (backend call).  Strings are modelled by Lean
`String`/`List Char`; the JavaScript regular expressions appearing in the
router are modelled by executable functions on character lists that follow
the semantics of the concrete patterns the source constructs.  The memoised
`loadConfig()` result is passed to each function explicitly, with `none`
standing for a missing or unparseable configuration file.  Logging calls are
value-irrelevant and are omitted.
-/

namespace Nanoclaw

/-- Modelled from the spec: one conversation turn (the repository's
`types.ts` is not among the sources; the shape is fixed by the spec's data
model together with the three fields the router reads: the textual content,
a sender-is-the-automation flag, and a sender-is-a-bot flag). -/
structure NewMessage where
  content : String
  is_from_me : Bool
  is_bot_message : Bool
deriving Repr, DecidableEq

/-- The `RouteDecision` string union of `llm-router.ts`. -/
inductive RouteDecision where
  | ollamaForced
  | ollamaSimple
  | ollamaPrivacy
  | claude
deriving Repr, DecidableEq

/-- The `ollama.models` block of the routing configuration. -/
structure OllamaModels where
  simple : String
  general : String
  reasoning : String
deriving Repr, DecidableEq

/-- The `ollama` block of the routing configuration. -/
structure OllamaSection where
  baseUrl : String
  timeoutMs : Nat
  models : OllamaModels
deriving Repr, DecidableEq

/-- The `routing` block of the routing configuration. -/
structure RoutingSection where
  maxWordsForSimple : Nat
  privacyKeywords : List String
  simpleStarters : List String
deriving Repr, DecidableEq

/-- The `RoutingConfig` interface of `llm-router.ts`. -/
structure RoutingConfig where
  enabled : Bool
  ollama : OllamaSection
  routing : RoutingSection
deriving Repr, DecidableEq

/-- JavaScript whitespace class, restricted to the ASCII whitespace
characters recognised by `Char.isWhitespace`; every text in this development
stays inside that range. -/
def isWS (c : Char) : Bool := c.isWhitespace

/-- JavaScript word-character class `[A-Za-z0-9_]`, as used by the `\b`
assertion of the regular expressions in the router. -/
def isWordChar (c : Char) : Bool := c.isAlphanum || c == '_'

/-- Drop leading whitespace. -/
def trimL (cs : List Char) : List Char := cs.dropWhile isWS

/-- Drop trailing whitespace. -/
def trimR (cs : List Char) : List Char := (cs.reverse.dropWhile isWS).reverse

/-- JavaScript `String.prototype.trim` on a character list. -/
def trimBoth (cs : List Char) : List Char := trimR (trimL cs)

/-- Case-insensitive prefix test, as performed by an `/i` regular
expression on a literal pattern. -/
def startsWithCI : List Char → List Char → Bool
  | [], _ => true
  | _ :: _, [] => false
  | p :: ps, c :: cs => (p.toLower == c.toLower) && startsWithCI ps cs

/-- The characters of the literal `!local`. -/
def localChars : List Char := ['!', 'l', 'o', 'c', 'a', 'l']

/-- One replacement step of `content.replace(/^@\S+\s*/u, '')`: a literal
`@` followed by at least one non-whitespace character, then any run of
whitespace, all removed when present. -/
def stripMention (cs : List Char) : List Char :=
  match cs with
  | '@' :: c :: rest =>
    if isWS c then cs
    else ((c :: rest).dropWhile (fun ch => !isWS ch)).dropWhile isWS
  | _ => cs

/-- One replacement step of `.replace(/^!local\s*/i, '')`: a leading
case-insensitive `!local` (no word-boundary requirement) together with any
run of following whitespace, removed when present. -/
def stripLocal (cs : List Char) : List Char :=
  if startsWithCI localChars cs then (cs.drop 6).dropWhile isWS else cs

/-- The test `/^!local\b/i.test(s)`: a leading case-insensitive `!local`
followed by a word boundary (end of string or a non-word character). -/
def localDirective (cs : List Char) : Bool :=
  startsWithCI localChars cs &&
    (match cs.drop 6 with
     | [] => true
     | c :: _ => !isWordChar c)

/-- `lastUserMessage` of `llm-router.ts`: the last message authored neither
by the automation nor by a bot, falling back to the conversation's final
message.  On the empty conversation, which the spec's precondition excludes
and on which the JavaScript indexing would yield `undefined`, the model
returns an inert empty message. -/
def lastUserMessage (messages : List NewMessage) : NewMessage :=
  let userMessages := messages.filter (fun m => !m.is_from_me && !m.is_bot_message)
  if userMessages.length > 0 then
    userMessages.getLast?.getD ⟨"", false, false⟩
  else
    messages.getLast?.getD ⟨"", false, false⟩

/-- `extractLastUserText` of `llm-router.ts`: strip the `@mention`, then the
`!local` directive, then trim. -/
def extractLastUserText (messages : List NewMessage) : String :=
  ⟨trimBoth (stripLocal (stripMention (lastUserMessage messages).content.data))⟩

/-- `mentionStripped` of `llm-router.ts`: strip only the `@mention`, then
trim; used to detect `!local` before removing it. -/
def mentionStripped (messages : List NewMessage) : String :=
  ⟨trimBoth (stripMention (lastUserMessage messages).content.data)⟩

/-!
A small executable model of the fragment of JavaScript regular expressions
that the privacy-keyword patterns of `hasPrivacyKeyword` fall into.  The
source builds, for a keyword `kw`, the pattern

  new RegExp("\\b" + kw.toLowerCase().replace(/\s+/g, "\\s+") + "\\b")

without escaping `kw`, so the keyword's characters are read as regular
expression syntax.  The model supports literal characters, the `\b`
assertion, `\s+` runs produced by the whitespace replacement, and the `+`
quantifier over a literal; a keyword character outside this fragment makes
compilation fail, exactly as the unbalanced `(` of the counterexamples makes
the JavaScript `RegExp` constructor throw.
-/

/-- One token of a compiled privacy-keyword pattern. -/
inductive RTok where
  | lit (c : Char)
  | plusLit (c : Char)
  | wsPlus
  | wb
deriving Repr, DecidableEq

/-- Wordness of an optional character; `none` (string edge) is not a word
character, matching the `\b` semantics at the ends of the subject. -/
def optIsWord : Option Char → Bool
  | none => false
  | some c => isWordChar c

/-- The `\b` assertion: the wordness of the previous and next characters
differs. -/
def isBoundary (prev next : Option Char) : Bool := optIsWord prev != optIsWord next

/-- A matcher state: the character immediately before the current position
(`none` at the start of the subject) and the remaining text. -/
def MState : Type := Option Char × List Char

/-- States reached by consuming one or more characters of the run
satisfying `pred` at the head of the text: the possible continuations of a
`+`-style quantifier. -/
def consumeRun (pred : Char → Bool) : List Char → List MState
  | [] => []
  | x :: xs => if pred x then (some x, xs) :: consumeRun pred xs else []

/-- One pattern token applied to every pending state: `\b` keeps the states
at a word boundary, a literal consumes one matching character, and the
quantified tokens consume one or more characters of the corresponding run.
Tracking the whole set of reachable positions yields exactly the acceptance
of the JavaScript engine's backtracking search over this fragment. -/
def stepTok : RTok → List MState → List MState
  | RTok.wb, states => states.filter (fun st => isBoundary st.1 st.2.head?)
  | RTok.lit c, states =>
    states.filterMap (fun st =>
      match st.2 with
      | x :: xs => if x == c then some (some x, xs) else none
      | [] => none)
  | RTok.plusLit c, states =>
    states.flatMap (fun st => consumeRun (fun x => x == c) st.2)
  | RTok.wsPlus, states =>
    states.flatMap (fun st => consumeRun isWS st.2)

/-- Run all pattern tokens in order over a set of states. -/
def runToks : List RTok → List MState → List MState
  | [], states => states
  | t :: rest, states => runToks rest (stepTok t states)

/-- Every position of the subject, each with its preceding character. -/
def suffixStates : Option Char → List Char → List MState
  | prev, [] => [(prev, [])]
  | prev, c :: rest => (prev, c :: rest) :: suffixStates (some c) rest

/-- `RegExp.prototype.test`: the pattern matches starting at some position
of the subject exactly when some state survives all tokens. -/
def regexTest (toks : List RTok) (text : List Char) : Bool :=
  !(runToks toks (suffixStates none text)).isEmpty

/-- Keyword characters that JavaScript regular expressions read as literal
atoms and that this model supports: word characters and a fixed list of
always-literal punctuation. -/
def isSafeLitChar (c : Char) : Bool :=
  isWordChar c ||
    c ∈ ['!', '@', '#', '%', '&', ',', '-', ':', ';', '<', '>', '=', '~', '/']

/-- Compilation of the pattern body obtained from a lower-cased keyword
whose whitespace runs were replaced by `\s+`.  A `+` directly after a
literal becomes a quantifier; a `+` after a whitespace run or at the start
would stack on `\s+` or on the leading `\b`, which the `RegExp` constructor
rejects, and a character outside the supported fragment also fails. -/
def parseBody : List Char → Option (List RTok)
  | [] => some []
  | [c] =>
    if isWS c then some [RTok.wsPlus]
    else if isSafeLitChar c then some [RTok.lit c]
    else none
  | c :: c2 :: rest =>
    if isWS c then
      if isWS c2 then parseBody (c2 :: rest)
      else if c2 == '+' then none
      else (parseBody (c2 :: rest)).map (fun ts => RTok.wsPlus :: ts)
    else if isSafeLitChar c then
      if c2 == '+' then (parseBody rest).map (fun ts => RTok.plusLit c :: ts)
      else (parseBody (c2 :: rest)).map (fun ts => RTok.lit c :: ts)
    else none

/-- `new RegExp("\\b" + kw.toLowerCase().replace(/\s+/g, "\\s+") + "\\b")`,
compiled into the token model: lower-case the keyword, compile the body, and
surround it with the two `\b` assertions. -/
def buildPattern (kw : String) : Option (List RTok) :=
  (parseBody (kw.data.map Char.toLower)).map
    (fun body => RTok.wb :: body ++ [RTok.wb])

/-- The last character of `w`, or `prev` when `w` is empty: the character
preceding the current position after consuming `w`. -/
def lastOr (prev : Option Char) (w : List Char) : Option Char := w.getLast?.or prev

/-- The token list a metacharacter-free phrase compiles to: its words as
literal runs, separated by `\s+` tokens. -/
def phraseToks : List (List Char) → List RTok
  | [] => []
  | [w] => w.map RTok.lit
  | w :: w2 :: ws => w.map RTok.lit ++ RTok.wsPlus :: phraseToks (w2 :: ws)

/-- `messages.map((m) => m.content).join(' ')` on the character level. -/
def joinSpace : List NewMessage → List Char
  | [] => []
  | [m] => m.content.data
  | m :: m2 :: rest => m.content.data ++ ' ' :: joinSpace (m2 :: rest)

/-- The `allText` value of `hasPrivacyKeyword`: every message content joined
with single spaces and lower-cased. -/
def allText (messages : List NewMessage) : List Char :=
  (joinSpace messages).map Char.toLower

/-- The `keywords.some(...)` loop of `hasPrivacyKeyword`: for each keyword
in order, compile its pattern and test it against the text, short-circuiting
on the first match; a keyword whose pattern fails to compile makes the whole
call fail, as the throwing `RegExp` constructor does in the source. -/
def someMatch : List String → List Char → Except Unit Bool
  | [], _ => Except.ok false
  | kw :: rest, text =>
    match buildPattern kw with
    | none => Except.error ()
    | some toks =>
      if regexTest toks text then Except.ok true else someMatch rest text

/-- `hasPrivacyKeyword` of `llm-router.ts`, with the possible exception from
`new RegExp` made explicit in the `Except`. -/
def hasPrivacyKeywordE (messages : List NewMessage) (keywords : List String) :
    Except Unit Bool :=
  someMatch keywords (allText messages)

/-- The module constant `COMMAND_STARTERS` of `llm-router.ts`. -/
def COMMAND_STARTERS : List String := ["define", "explain"]

/-- One pass of the JavaScript `split(/\s+/)` over text without leading or
trailing whitespace; `cur` holds the characters of the current word in
reverse. -/
def splitAux (cur : List Char) : List Char → List (List Char)
  | [] => if cur.isEmpty then [] else [cur.reverse]
  | c :: rest =>
    if isWS c then
      if cur.isEmpty then splitAux [] rest else cur.reverse :: splitAux [] rest
    else splitAux (c :: cur) rest

/-- `text.trim().split(/\s+/)`: on the empty string JavaScript `split`
yields the one-element array containing the empty string. -/
def splitWords (text : List Char) : List (List Char) :=
  let t := trimBoth text
  if t.isEmpty then [[]] else splitAux [] t

/-- `words[0].toLowerCase().replace(/[^a-z]/g, '')`. -/
def normalizeWord (w : List Char) : List Char :=
  (w.map Char.toLower).filter (fun c => 'a' ≤ c && c ≤ 'z')

/-- `isSimpleQuestion` of `llm-router.ts`.  `words` is never empty, so the
`headD` models the JavaScript `words[0]`. -/
def isSimpleQuestion (text : String) (maxWords : Nat) (simpleStarters : List String) :
    Bool :=
  let words := splitWords text.data
  if words.length > maxWords then false
  else
    let firstWord : String := ⟨normalizeWord (words.headD [])⟩
    if !simpleStarters.contains firstWord then false
    else COMMAND_STARTERS.contains firstWord || text.data.contains '?'

/-- `classifyMessages` of `llm-router.ts`.  The cached configuration is an
explicit argument (`none` models a missing or unparseable file); the
possible exception from the privacy regular expressions is made explicit in
the `Except`. -/
def classifyMessages (messages : List NewMessage) (cfg? : Option RoutingConfig) :
    Except Unit RouteDecision :=
  match cfg? with
  | none => Except.ok RouteDecision.claude
  | some cfg =>
    if !cfg.enabled then Except.ok RouteDecision.claude
    else if localDirective (mentionStripped messages).data then
      Except.ok RouteDecision.ollamaForced
    else
      match hasPrivacyKeywordE messages cfg.routing.privacyKeywords with
      | Except.error e => Except.error e
      | Except.ok true => Except.ok RouteDecision.ollamaPrivacy
      | Except.ok false =>
        if isSimpleQuestion (extractLastUserText messages)
            cfg.routing.maxWordsForSimple cfg.routing.simpleStarters then
          Except.ok RouteDecision.ollamaSimple
        else Except.ok RouteDecision.claude

/-!
The backend call of `src/ollama-client.ts`.  The network is abstracted by a
`FetchResult` describing how the single `fetch` of `queryOllama` ends: a
reply with a status and a decoded body, a network failure, or the firing of
the abort timer.  The function itself is then a pure case analysis that
mirrors the `try`/`catch` of the source.
-/

/-- The decoded response body, as read by `queryOllama`: `done` is the
truthiness of the `done` field (`false` also when it is absent), and
`response` is `some` exactly when the `response` field is present with a
string value. -/
structure OllamaPayload where
  response : Option String
  done : Bool
deriving Repr, DecidableEq

/-- How the single `fetch` of `queryOllama` ends.  `reply` carries the HTTP
status and the decoded body (`none` when the body is not valid JSON);
`netErr` is a rejected fetch (network failure); `timeout` is the abort
fired by the `timeoutMs` timer. -/
inductive FetchResult where
  | reply (status : Nat) (statusText : String) (payload : Option OllamaPayload)
  | netErr
  | timeout
deriving Repr, DecidableEq

/-- The errors `queryOllama` can throw: a non-success HTTP status, a
malformed body (not JSON, `done` not true, or `response` not a string), the
dedicated timeout error, and a rethrown network failure. -/
inductive OllamaError where
  | httpError (status : Nat) (statusText : String)
  | malformed
  | timedOut (timeoutMs : Nat)
  | network
deriving Repr, DecidableEq

/-- `Response.ok`: the status is in the inclusive success range 200–299. -/
def resOk (status : Nat) : Bool := 200 ≤ status && status ≤ 299

/-- `queryOllama` of `ollama-client.ts` as a pure function of the fetch
outcome: non-success status throws the HTTP error; a body that is not JSON,
whose `done` is not true, or whose `response` is not a string throws the
format error; an abort becomes the dedicated timeout error; any other
rejection is rethrown.  On success the trimmed response text is returned. -/
def queryOllama (outcome : FetchResult) (timeoutMs : Nat) : Except OllamaError String :=
  match outcome with
  | FetchResult.timeout => Except.error (OllamaError.timedOut timeoutMs)
  | FetchResult.netErr => Except.error OllamaError.network
  | FetchResult.reply status statusText payload =>
    if !resOk status then Except.error (OllamaError.httpError status statusText)
    else
      match payload with
      | none => Except.error OllamaError.malformed
      | some data =>
        if !data.done then Except.error OllamaError.malformed
        else
          match data.response with
          | none => Except.error OllamaError.malformed
          | some r => Except.ok ⟨trimBoth r.data⟩

/-- The model chosen by `tryOllamaRoute`: the `simple` model for
`ollama-simple`, the `general` model for every other decision reaching the
call. -/
def selectModel (decision : RouteDecision) (cfg : RoutingConfig) : String :=
  if decision == RouteDecision.ollamaSimple then cfg.ollama.models.simple
  else cfg.ollama.models.general

/-- The response indicator of `tryOllamaRoute`: the privacy marker for
`ollama-privacy`, the local marker otherwise. -/
def indicator (decision : RouteDecision) : String :=
  if decision == RouteDecision.ollamaPrivacy then "🔒 [Private]" else "🤖 [Local]"

/-- `tryOllamaRoute` of `llm-router.ts`.  The network is abstracted by
`fetchOutcome`, giving the outcome of the one `fetch` as a function of the
prompt, model, base URL and timeout the dispatcher passes to `queryOllama`.
`Except.ok none` is the "fall through to Claude" result; the `Except.error`
can arise only from the classifier's regular-expression construction, which
the source runs outside its `try` block. -/
def tryOllamaRoute (messages : List NewMessage) (cfg? : Option RoutingConfig)
    (fetchOutcome : String → String → String → Nat → FetchResult) :
    Except Unit (Option String) :=
  match cfg? with
  | none => Except.ok none
  | some cfg =>
    if !cfg.enabled then Except.ok none
    else
      match classifyMessages messages (some cfg) with
      | Except.error e => Except.error e
      | Except.ok RouteDecision.claude => Except.ok none
      | Except.ok decision =>
        let userText := extractLastUserText messages
        let model := selectModel decision cfg
        match queryOllama
            (fetchOutcome userText model cfg.ollama.baseUrl cfg.ollama.timeoutMs)
            cfg.ollama.timeoutMs with
        | Except.error _ => Except.ok none
        | Except.ok response =>
          Except.ok (some (indicator decision ++ " " ++ response))

/-!
Spec-side definitions.  These follow the wording of the specification and of
the claims, not the source, and exist to be compared with the definitions
above.
-/

/-- A word of a privacy phrase: a nonempty run of word characters. -/
def WordRun (w : List Char) : Prop := w ≠ [] ∧ ∀ c ∈ w, isWordChar c = true

/-- A whitespace run: nonempty, all whitespace. -/
def WsRun (s : List Char) : Prop := s ≠ [] ∧ ∀ c ∈ s, isWS c = true

instance (w : List Char) : Decidable (WordRun w) :=
  inferInstanceAs (Decidable (_ ∧ _))

instance (s : List Char) : Decidable (WsRun s) :=
  inferInstanceAs (Decidable (_ ∧ _))

/-- The lower-cased characters of a keyword, decomposed as words separated
by whitespace runs: the shape of a privacy phrase that contains only word
characters and internal whitespace. -/
inductive KwShape : List (List Char) → List Char → Prop where
  | single (w : List Char) : WordRun w → KwShape [w] w
  | cons (w s : List Char) (ws : List (List Char)) (rest : List Char) :
      WordRun w → WsRun s → KwShape ws rest → KwShape (w :: ws) (w ++ s ++ rest)

/-- An occurrence of a phrase's words in a text segment, with each internal
whitespace of the phrase matching one or more whitespace characters of the
text — the spec's flexible whole-phrase occurrence. -/
inductive PhraseOcc : List (List Char) → List Char → Prop where
  | single (w : List Char) : WordRun w → PhraseOcc [w] w
  | cons (w s : List Char) (ws : List (List Char)) (rest : List Char) :
      WordRun w → WsRun s → PhraseOcc ws rest → PhraseOcc (w :: ws) (w ++ s ++ rest)

/-- The spec's whole-word/whole-phrase containment of a literal pattern `p`
in `text`: `p` occurs with a word-boundary on each side (the wordness of the
neighbouring character differs from the wordness of the pattern's edge
character). -/
def specWholeOcc (p text : List Char) : Prop :=
  ∃ pre post, text = pre ++ p ++ post ∧
    optIsWord pre.getLast? ≠ optIsWord p.head? ∧
    optIsWord p.getLast? ≠ optIsWord post.head?

/-- Claim C8's mention step, read literally: one non-whitespace token
immediately followed by whitespace at the start of the string is stripped
together with that whitespace. -/
def claimMentionStrip (cs : List Char) : List Char :=
  let tok := cs.takeWhile (fun c => !isWS c)
  let rest := cs.dropWhile (fun c => !isWS c)
  if tok.isEmpty || rest.isEmpty then cs else rest.dropWhile isWS

/-- Claim C8's directive step, read literally: a leading case-insensitive
`!local` standing as a whole token (followed by whitespace or the end) is
stripped together with the following whitespace. -/
def claimLocalStrip (cs : List Char) : List Char :=
  if startsWithCI localChars cs then
    match cs.drop 6 with
    | [] => []
    | c :: rest' => if isWS c then (c :: rest').dropWhile isWS else cs
  else cs

/-- Claim C8's bare text, read literally: the mention step followed by the
directive step (the claim mentions no final trim). -/
def claimBareText (cs : List Char) : List Char :=
  claimLocalStrip (claimMentionStrip cs)

/-- The amended mention step: a mention is a leading `@` followed by at
least one further non-whitespace character, stripped together with any
(possibly empty) run of following whitespace. -/
def specMentionAmended (cs : List Char) : List Char :=
  match cs with
  | [] => []
  | c :: rest =>
    if c == '@' && !(rest.takeWhile (fun ch => !isWS ch)).isEmpty then
      (rest.dropWhile (fun ch => !isWS ch)).dropWhile isWS
    else cs

/-- The amended bare text: the amended mention step, then a leading
case-insensitive `!local` (no word-boundary requirement) together with any
following whitespace stripped when present, and the result trimmed of
surrounding whitespace. -/
def specBareTextAmended (cs : List Char) : List Char :=
  let afterMention := specMentionAmended cs
  let afterLocal :=
    if startsWithCI localChars afterMention then (afterMention.drop 6).dropWhile isWS
    else afterMention
  trimBoth afterLocal

/-- Whether an `Except` holds a success value. -/
def exceptOk {ε α : Type} : Except ε α → Bool
  | Except.ok _ => true
  | Except.error _ => false

/-- Decidable equality of `Except` values, so that concrete routing results
can be checked by `decide`. -/
instance instExceptDecEq {ε α : Type} [DecidableEq ε] [DecidableEq α] :
    DecidableEq (Except ε α) := fun x y =>
  match x, y with
  | Except.ok u, Except.ok v =>
    if h : u = v then isTrue (by rw [h]) else isFalse (fun hc => h (by injection hc))
  | Except.ok _, Except.error _ => isFalse (fun hc => Except.noConfusion hc)
  | Except.error _, Except.ok _ => isFalse (fun hc => Except.noConfusion hc)
  | Except.error u, Except.error v =>
    if h : u = v then isTrue (by rw [h]) else isFalse (fun hc => h (by injection hc))

/-- Claim C9's failure condition, read literally: the HTTP status is
outside the success range, or the body's completed flag is missing or false
or its generated-text field is not a string, or the elapsed time exceeds
the timeout.  A rejected fetch with no HTTP reply satisfies none of the
three. -/
def specFailCond (outcome : FetchResult) : Bool :=
  match outcome with
  | FetchResult.timeout => true
  | FetchResult.netErr => false
  | FetchResult.reply status _ payload =>
    !resOk status ||
      (match payload with
       | none => true
       | some data => !data.done || data.response.isNone)

/-!
Helper lemmas shared by the claim theorems.
-/

/-- `isSimpleQuestion` spelled out as the conjunction used by the claims:
the word count is within the ceiling, the normalized first word is a
configured starter, and the first word is a command starter or the text
contains a question mark. -/
theorem isSimpleQuestion_eq (text : String) (maxWords : Nat)
    (simpleStarters : List String) :
    isSimpleQuestion text maxWords simpleStarters =
      (decide ((splitWords text.data).length ≤ maxWords) &&
        simpleStarters.contains ⟨normalizeWord ((splitWords text.data).headD [])⟩ &&
        (COMMAND_STARTERS.contains ⟨normalizeWord ((splitWords text.data).headD [])⟩ ||
          text.data.contains '?')) := by
  simp only [isSimpleQuestion]
  by_cases h1 : (splitWords text.data).length > maxWords
  · have h2 : ¬ (splitWords text.data).length ≤ maxWords := by omega
    simp [h1, h2]
  · have h2 : (splitWords text.data).length ≤ maxWords := by omega
    by_cases h3 : simpleStarters.contains ⟨normalizeWord ((splitWords text.data).headD [])⟩
    · simp [h1, h2, h3]
    · simp [h1, h2, h3]

/-- Pushing `Except.ok` through a routing conditional. -/
theorem ite_ok_push {P : Prop} [Decidable P] {a b : RouteDecision} :
    (if P then (Except.ok a : Except Unit RouteDecision) else Except.ok b) =
      Except.ok (if P then a else b) := by
  by_cases h : P <;> simp [h]

/-- A disabled configuration classifies to `claude`. -/
theorem classify_of_not_enabled (msgs : List NewMessage) (cfg : RoutingConfig)
    (h : cfg.enabled = false) :
    classifyMessages msgs (some cfg) = Except.ok RouteDecision.claude := by
  simp [classifyMessages, h]

/-- A classification other than `claude` forces the enabled flag. -/
theorem enabled_of_classify_local (msgs : List NewMessage) (cfg : RoutingConfig)
    (d : RouteDecision) (hd : classifyMessages msgs (some cfg) = Except.ok d)
    (hne : d ≠ RouteDecision.claude) : cfg.enabled = true := by
  cases h : cfg.enabled
  · rw [classify_of_not_enabled msgs cfg h] at hd
    cases hd
    exact absurd rfl hne
  · rfl

/-!
Claim theorems.
-/

/-- C1: for every non-empty conversation whose mention-stripped subject text
begins with the case-insensitive token `!local` at a word boundary, and
every enabled policy, `classifyMessages` returns the forced-local decision,
whatever the rest of the conversation or the privacy keyword list. -/
theorem classify_forced_local (msgs : List NewMessage) (cfg : RoutingConfig)
    (hne : msgs ≠ []) (hen : cfg.enabled = true)
    (hloc : localDirective (mentionStripped msgs).data = true) :
    classifyMessages msgs (some cfg) = Except.ok RouteDecision.ollamaForced := by
  simp [classifyMessages, hen, hloc]

/-- C1 witness: a concrete `!LOCAL` conversation with an enabled policy
whose keyword list even contains a phrase present in the message and an
invalid pattern. -/
theorem classify_forced_local_witness :
    ([⟨"@Andy !LOCAL share my social security number", false, false⟩] :
        List NewMessage) ≠ [] ∧
      (true : Bool) = true ∧
      localDirective (mentionStripped
        [⟨"@Andy !LOCAL share my social security number", false, false⟩]).data = true ∧
      classifyMessages [⟨"@Andy !LOCAL share my social security number", false, false⟩]
          (some ⟨true, ⟨"http://localhost:11434", 30000, ⟨"s", "g", "r"⟩⟩,
            ⟨6, ["social security", "("], ["what"]⟩⟩) =
        Except.ok RouteDecision.ollamaForced :=
  ⟨by decide, rfl, by decide,
    classify_forced_local
      [⟨"@Andy !LOCAL share my social security number", false, false⟩]
      ⟨true, ⟨"http://localhost:11434", 30000, ⟨"s", "g", "r"⟩⟩,
        ⟨6, ["social security", "("], ["what"]⟩⟩
      (by decide) rfl (by decide)⟩

/-- C3: with an enabled policy and neither the forced-local nor the
privacy-local condition matching, the decision is simple-local exactly when
the bare text's word count is within the ceiling, its normalized first word
is a configured question starter, and that word is a command starter or the
text contains a question mark; otherwise the decision is remote. -/
theorem classify_simple_iff (msgs : List NewMessage) (cfg : RoutingConfig)
    (hne : msgs ≠ []) (hen : cfg.enabled = true)
    (hforced : localDirective (mentionStripped msgs).data = false)
    (hpriv : hasPrivacyKeywordE msgs cfg.routing.privacyKeywords = Except.ok false) :
    classifyMessages msgs (some cfg) =
      Except.ok
        (if (decide ((splitWords (extractLastUserText msgs).data).length ≤
              cfg.routing.maxWordsForSimple) &&
            cfg.routing.simpleStarters.contains
              ⟨normalizeWord ((splitWords (extractLastUserText msgs).data).headD [])⟩ &&
            (COMMAND_STARTERS.contains
                ⟨normalizeWord ((splitWords (extractLastUserText msgs).data).headD [])⟩ ||
              (extractLastUserText msgs).data.contains '?')) then
          RouteDecision.ollamaSimple
        else RouteDecision.claude) := by
  simp only [classifyMessages, hen, Bool.not_true, Bool.false_eq_true, if_false,
    hforced, hpriv]
  rw [isSimpleQuestion_eq]
  exact ite_ok_push

/-- C3 witness: the spec's own example conversation and policy. -/
theorem classify_simple_iff_witness :
    ([⟨"@Andy What is 2+2?", false, false⟩] : List NewMessage) ≠ [] ∧
      localDirective (mentionStripped
        [⟨"@Andy What is 2+2?", false, false⟩]).data = false ∧
      hasPrivacyKeywordE [⟨"@Andy What is 2+2?", false, false⟩] [] = Except.ok false ∧
      classifyMessages [⟨"@Andy What is 2+2?", false, false⟩]
          (some ⟨true, ⟨"http://localhost:11434", 30000, ⟨"s", "g", "r"⟩⟩,
            ⟨6, [], ["what"]⟩⟩) =
        Except.ok
          (if (decide ((splitWords (extractLastUserText
                  [⟨"@Andy What is 2+2?", false, false⟩]).data).length ≤ 6) &&
              (["what"] : List String).contains
                ⟨normalizeWord ((splitWords (extractLastUserText
                  [⟨"@Andy What is 2+2?", false, false⟩]).data).headD [])⟩ &&
              (COMMAND_STARTERS.contains
                  ⟨normalizeWord ((splitWords (extractLastUserText
                    [⟨"@Andy What is 2+2?", false, false⟩]).data).headD [])⟩ ||
                (extractLastUserText
                  [⟨"@Andy What is 2+2?", false, false⟩]).data.contains '?')) then
            RouteDecision.ollamaSimple
          else RouteDecision.claude) :=
  ⟨by decide, by decide, by decide,
    classify_simple_iff [⟨"@Andy What is 2+2?", false, false⟩]
      ⟨true, ⟨"http://localhost:11434", 30000, ⟨"s", "g", "r"⟩⟩, ⟨6, [], ["what"]⟩⟩
      (by decide) rfl (by decide) (by decide)⟩

/-- C4: the code is not total — a privacy keyword containing a regular
expression metacharacter makes the `RegExp` constructor inside
`hasPrivacyKeyword` throw, so `classifyMessages` raises instead of
returning a decision.  Here the enabled policy carries the keyword `(`,
whose pattern `\b(\b` is rejected, on an ordinary conversation. -/
theorem classify_throws_on_metachar_keyword :
    classifyMessages [⟨"hello there", false, false⟩]
        (some ⟨true, ⟨"http://localhost:11434", 30000, ⟨"s", "g", "r"⟩⟩,
          ⟨6, ["("], ["what"]⟩⟩) = Except.error () := by
  decide

/-- C5: whenever the classifier yields a local decision and the single
backend call fails — whatever the error — the dispatcher returns absent and
no exception escapes. -/
theorem dispatcher_absorbs_failure (msgs : List NewMessage) (cfg : RoutingConfig)
    (fetchOutcome : String → String → String → Nat → FetchResult)
    (d : RouteDecision) (e : OllamaError)
    (hd : classifyMessages msgs (some cfg) = Except.ok d)
    (hne : d ≠ RouteDecision.claude)
    (herr : queryOllama
        (fetchOutcome (extractLastUserText msgs) (selectModel d cfg)
          cfg.ollama.baseUrl cfg.ollama.timeoutMs) cfg.ollama.timeoutMs =
      Except.error e) :
    tryOllamaRoute msgs (some cfg) fetchOutcome = Except.ok none := by
  have hen := enabled_of_classify_local msgs cfg d hd hne
  cases d with
  | claude => exact absurd rfl hne
  | ollamaForced => simp [tryOllamaRoute, hen, hd, herr]
  | ollamaSimple => simp [tryOllamaRoute, hen, hd, herr]
  | ollamaPrivacy => simp [tryOllamaRoute, hen, hd, herr]

/-- C5 witness: a forced-local conversation whose backend call times out. -/
theorem dispatcher_absorbs_failure_witness :
    classifyMessages [⟨"@Andy !local tell me a joke", false, false⟩]
        (some ⟨true, ⟨"http://localhost:11434", 30000, ⟨"s", "g", "r"⟩⟩,
          ⟨6, [], ["what"]⟩⟩) = Except.ok RouteDecision.ollamaForced ∧
      RouteDecision.ollamaForced ≠ RouteDecision.claude ∧
      tryOllamaRoute [⟨"@Andy !local tell me a joke", false, false⟩]
          (some ⟨true, ⟨"http://localhost:11434", 30000, ⟨"s", "g", "r"⟩⟩,
            ⟨6, [], ["what"]⟩⟩)
          (fun _ _ _ _ => FetchResult.timeout) = Except.ok none :=
  ⟨by decide, by decide,
    dispatcher_absorbs_failure [⟨"@Andy !local tell me a joke", false, false⟩]
      ⟨true, ⟨"http://localhost:11434", 30000, ⟨"s", "g", "r"⟩⟩, ⟨6, [], ["what"]⟩⟩
      (fun _ _ _ _ => FetchResult.timeout) RouteDecision.ollamaForced
      (OllamaError.timedOut 30000) (by decide) (by decide) (by decide)⟩

/-- C6 counterexample: `define` is a command starter and the conversation
is within the word ceiling with no higher-precedence rule firing, yet the
decision is `claude`, because the first word must also belong to the
configured question-starter list (here `["what"]`), which the claim
omits. -/
theorem command_starter_cex :
    COMMAND_STARTERS.contains ("define") = true ∧
      (splitWords ("define ontology").data).length ≤ 6 ∧
      classifyMessages [⟨"define ontology", false, false⟩]
          (some ⟨true, ⟨"http://localhost:11434", 30000, ⟨"s", "g", "r"⟩⟩,
            ⟨6, [], ["what"]⟩⟩) =
        Except.ok RouteDecision.claude := by
  decide

/-- C6 amended: a first word that is both a configured question starter and
a member of the built-in command-starter set `{define, explain}` yields
simple-local without any question mark, under the same precedence and
word-count constraints. -/
theorem command_starter_simple (msgs : List NewMessage) (cfg : RoutingConfig)
    (hne : msgs ≠ []) (hen : cfg.enabled = true)
    (hforced : localDirective (mentionStripped msgs).data = false)
    (hpriv : hasPrivacyKeywordE msgs cfg.routing.privacyKeywords = Except.ok false)
    (hlen : (splitWords (extractLastUserText msgs).data).length ≤
      cfg.routing.maxWordsForSimple)
    (hstart : cfg.routing.simpleStarters.contains
        ⟨normalizeWord ((splitWords (extractLastUserText msgs).data).headD [])⟩ = true)
    (hcmd : COMMAND_STARTERS.contains
        ⟨normalizeWord ((splitWords (extractLastUserText msgs).data).headD [])⟩ = true) :
    classifyMessages msgs (some cfg) = Except.ok RouteDecision.ollamaSimple := by
  have hq : isSimpleQuestion (extractLastUserText msgs)
      cfg.routing.maxWordsForSimple cfg.routing.simpleStarters = true := by
    rw [isSimpleQuestion_eq]
    simp only [Bool.and_eq_true, Bool.or_eq_true, decide_eq_true_eq]
    exact ⟨⟨hlen, hstart⟩, Or.inl hcmd⟩
  simp [classifyMessages, hen, hforced, hpriv, hq]

/-- C6 amended witness: `define ontology` with `define` configured as a
question starter routes simple-local without a question mark. -/
theorem command_starter_simple_witness :
    ([⟨"define ontology", false, false⟩] : List NewMessage) ≠ [] ∧
      localDirective (mentionStripped
        [⟨"define ontology", false, false⟩]).data = false ∧
      hasPrivacyKeywordE [⟨"define ontology", false, false⟩] [] = Except.ok false ∧
      classifyMessages [⟨"define ontology", false, false⟩]
          (some ⟨true, ⟨"http://localhost:11434", 30000, ⟨"s", "g", "r"⟩⟩,
            ⟨6, [], ["define"]⟩⟩) =
        Except.ok RouteDecision.ollamaSimple :=
  ⟨by decide, by decide, by decide,
    command_starter_simple [⟨"define ontology", false, false⟩]
      ⟨true, ⟨"http://localhost:11434", 30000, ⟨"s", "g", "r"⟩⟩, ⟨6, [], ["define"]⟩⟩
      (by decide) rfl (by decide) (by decide) (by decide) (by decide) (by decide)⟩

/-- C7: on every local decision the dispatcher issues its single backend
call with the `simple` model exactly for simple-local and the `general`
model for the two other local decisions, and its result is determined by
that call's outcome. -/
theorem dispatcher_selects_model (msgs : List NewMessage) (cfg : RoutingConfig)
    (fetchOutcome : String → String → String → Nat → FetchResult)
    (d : RouteDecision)
    (hd : classifyMessages msgs (some cfg) = Except.ok d)
    (hne : d ≠ RouteDecision.claude) :
    (d = RouteDecision.ollamaSimple → selectModel d cfg = cfg.ollama.models.simple) ∧
      ((d = RouteDecision.ollamaForced ∨ d = RouteDecision.ollamaPrivacy) →
        selectModel d cfg = cfg.ollama.models.general) ∧
      tryOllamaRoute msgs (some cfg) fetchOutcome =
        (match queryOllama
            (fetchOutcome (extractLastUserText msgs) (selectModel d cfg)
              cfg.ollama.baseUrl cfg.ollama.timeoutMs) cfg.ollama.timeoutMs with
         | Except.error _ => Except.ok none
         | Except.ok response =>
           Except.ok (some (indicator d ++ " " ++ response))) := by
  have hen := enabled_of_classify_local msgs cfg d hd hne
  refine ⟨?_, ?_, ?_⟩
  · intro h
    subst h
    simp [selectModel]
  · intro h
    rcases h with h | h <;> subst h <;> simp [selectModel]
  · cases d with
    | claude => exact absurd rfl hne
    | ollamaForced => simp [tryOllamaRoute, hen, hd]
    | ollamaSimple => simp [tryOllamaRoute, hen, hd]
    | ollamaPrivacy => simp [tryOllamaRoute, hen, hd]

/-- C7 witness: the spec's joke example — a forced-local decision calling
the `general` model, with a successful backend reply. -/
theorem dispatcher_selects_model_witness :
    classifyMessages [⟨"@Andy !local tell me a joke", false, false⟩]
        (some ⟨true, ⟨"http://localhost:11434", 30000,
          ⟨"llama-simple", "llama-general", "llama-reasoning"⟩⟩,
          ⟨6, [], ["what"]⟩⟩) = Except.ok RouteDecision.ollamaForced ∧
      RouteDecision.ollamaForced ≠ RouteDecision.claude ∧
      selectModel RouteDecision.ollamaForced
          ⟨true, ⟨"http://localhost:11434", 30000,
            ⟨"llama-simple", "llama-general", "llama-reasoning"⟩⟩,
            ⟨6, [], ["what"]⟩⟩ = "llama-general" ∧
      tryOllamaRoute [⟨"@Andy !local tell me a joke", false, false⟩]
          (some ⟨true, ⟨"http://localhost:11434", 30000,
            ⟨"llama-simple", "llama-general", "llama-reasoning"⟩⟩,
            ⟨6, [], ["what"]⟩⟩)
          (fun _ _ _ _ => FetchResult.reply 200 ("OK")
            (some ⟨some "Here is a joke.", true⟩)) =
        Except.ok (some ("🤖 [Local] Here is a joke.")) := by
  refine ⟨by decide, by decide, ?_, ?_⟩
  · exact ((dispatcher_selects_model [⟨"@Andy !local tell me a joke", false, false⟩]
      ⟨true, ⟨"http://localhost:11434", 30000,
        ⟨"llama-simple", "llama-general", "llama-reasoning"⟩⟩, ⟨6, [], ["what"]⟩⟩
      (fun _ _ _ _ => FetchResult.reply 200 ("OK") (some ⟨some "Here is a joke.", true⟩))
      RouteDecision.ollamaForced (by decide) (by decide)).2.1 (Or.inl rfl))
  · have h := (dispatcher_selects_model [⟨"@Andy !local tell me a joke", false, false⟩]
      ⟨true, ⟨"http://localhost:11434", 30000,
        ⟨"llama-simple", "llama-general", "llama-reasoning"⟩⟩, ⟨6, [], ["what"]⟩⟩
      (fun _ _ _ _ => FetchResult.reply 200 ("OK") (some ⟨some "Here is a joke.", true⟩))
      RouteDecision.ollamaForced (by decide) (by decide)).2.2
    rw [h]
    decide

/-- C8 counterexample: the claim's mention rule (any non-whitespace token
followed by whitespace) would strip `hello ` from `hello world`, but the
code's regular expression `^@\S+\s*` requires a literal `@`, so the code
leaves the text unchanged. -/
theorem bare_text_cex :
    claimBareText (("hello world" : String).data) = ("world" : String).data ∧
      extractLastUserText [⟨"hello world", false, false⟩] = "hello world" ∧
      extractLastUserText [⟨"hello world", false, false⟩] ≠
        ⟨claimBareText (("hello world" : String).data)⟩ := by
  decide

/-- The amended mention step agrees with the code's replacement of
`^@\S+\s*`. -/
theorem specMentionAmended_eq (cs : List Char) :
    specMentionAmended cs = stripMention cs := by
  cases cs with
  | nil => rfl
  | cons c rest =>
    by_cases hc : c = '@'
    · subst hc
      cases rest with
      | nil => rfl
      | cons c2 rest2 =>
        by_cases hws : isWS c2
        · simp [specMentionAmended, stripMention, hws, List.takeWhile]
        · simp [specMentionAmended, stripMention, hws, List.takeWhile]
    · simp [specMentionAmended, stripMention, hc]

/-- C8 amended: the bare text used by the classifier and the dispatcher is
the subject content with a leading `@`-token mention (an `@` plus at least
one further non-whitespace character, with any following whitespace)
stripped, then a leading case-insensitive `!local` with any following
whitespace stripped, and the result trimmed. -/
theorem bare_text_extraction (msgs : List NewMessage) (hne : msgs ≠ []) :
    extractLastUserText msgs =
      ⟨specBareTextAmended (lastUserMessage msgs).content.data⟩ := by
  simp only [extractLastUserText, specBareTextAmended, specMentionAmended_eq]
  rfl

/-- C8 amended witness: a mention, a directive and trailing whitespace are
all stripped on a concrete conversation. -/
theorem bare_text_extraction_witness :
    ([⟨"@Andy !LOCAL  What is 2+2? ", false, false⟩] : List NewMessage) ≠ [] ∧
      extractLastUserText [⟨"@Andy !LOCAL  What is 2+2? ", false, false⟩] =
        ⟨specBareTextAmended
          (lastUserMessage
            [⟨"@Andy !LOCAL  What is 2+2? ", false, false⟩]).content.data⟩ :=
  ⟨by decide, bare_text_extraction _ (by decide)⟩

/-- C9 counterexample: a plain network failure (a rejected fetch with no
HTTP reply) makes `queryOllama` fail although none of the claim's three
conditions — bad status, bad payload, timeout — holds. -/
theorem queryOllama_network_cex :
    exceptOk (queryOllama FetchResult.netErr 30000) = false ∧
      specFailCond FetchResult.netErr = false := by
  decide

/-- C9 amended: `queryOllama` fails exactly on a non-success status, a
missing/false completed flag or non-string generated text (including an
unparseable body), a timeout, or a network failure; and the dedicated
timeout error arises exactly from the timer firing. -/
theorem queryOllama_failure_characterisation (outcome : FetchResult)
    (timeoutMs : Nat) :
    (exceptOk (queryOllama outcome timeoutMs) = false ↔
      (specFailCond outcome = true ∨ outcome = FetchResult.netErr)) ∧
    ((∃ t, queryOllama outcome timeoutMs = Except.error (OllamaError.timedOut t)) ↔
      outcome = FetchResult.timeout) := by
  cases outcome with
  | timeout => simp [queryOllama, specFailCond, exceptOk]
  | netErr => simp [queryOllama, specFailCond, exceptOk]
  | reply s st p =>
    cases p with
    | none =>
      by_cases h : resOk s <;> simp [queryOllama, specFailCond, h, exceptOk]
    | some data =>
      by_cases h : resOk s
      · by_cases hdone : data.done
        · cases hr : data.response <;>
            simp [queryOllama, specFailCond, h, hdone, hr, exceptOk]
        · have hd : data.done = false := by revert hdone; cases data.done <;> simp
          simp [queryOllama, specFailCond, h, hd, exceptOk]
      · simp [queryOllama, specFailCond, h, exceptOk]

/-- C10: with a missing/unparseable configuration or a disabled policy, the
classifier answers `claude` and the dispatcher returns absent for every
possible backend, so no backend call can influence the result. -/
theorem disabled_policy_remote (msgs : List NewMessage)
    (cfg? : Option RoutingConfig)
    (fetchOutcome : String → String → String → Nat → FetchResult)
    (hne : msgs ≠ [])
    (hdis : ∀ cfg, cfg? = some cfg → cfg.enabled = false) :
    classifyMessages msgs cfg? = Except.ok RouteDecision.claude ∧
      tryOllamaRoute msgs cfg? fetchOutcome = Except.ok none := by
  cases cfg? with
  | none => exact ⟨rfl, rfl⟩
  | some cfg =>
    have h := hdis cfg rfl
    exact ⟨by simp [classifyMessages, h], by simp [tryOllamaRoute, h]⟩

/-- C10 witness: the missing-configuration case on a concrete
conversation. -/
theorem disabled_policy_remote_witness :
    ([⟨"@Andy What is 2+2?", true, false⟩] : List NewMessage) ≠ [] ∧
      classifyMessages [⟨"@Andy What is 2+2?", true, false⟩] none =
        Except.ok RouteDecision.claude ∧
      tryOllamaRoute [⟨"@Andy What is 2+2?", true, false⟩] none
          (fun _ _ _ _ => FetchResult.timeout) = Except.ok none :=
  ⟨by decide,
    (disabled_policy_remote _ none (fun _ _ _ _ => FetchResult.timeout)
      (by decide) (fun cfg h => by cases h)).1,
    (disabled_policy_remote _ none (fun _ _ _ _ => FetchResult.timeout)
      (by decide) (fun cfg h => by cases h)).2⟩

/-!
Lemmas about the pattern compiler and the matcher, leading to claim C2: a
safe privacy phrase that occurs in the conversation text as a whole phrase
is found by the compiled pattern.
-/

/-- A word character is not whitespace. -/
theorem word_not_ws {c : Char} (h : isWordChar c = true) : isWS c = false := by
  cases hw : isWS c
  · rfl
  · exfalso
    have hc : ((c = ' ' ∨ c = '\t') ∨ c = '\r') ∨ c = '\n' := by
      simpa [isWS, Char.isWhitespace] using hw
    rcases hc with ((rfl | rfl) | rfl) | rfl <;> exact absurd h (by decide)

/-- A word character is a supported literal. -/
theorem word_safe {c : Char} (h : isWordChar c = true) : isSafeLitChar c = true := by
  simp [isSafeLitChar, h]

/-- A word character is not the quantifier `+`. -/
theorem word_ne_plus {c : Char} (h : isWordChar c = true) : (c == '+') = false := by
  cases hc : c == '+'
  · rfl
  · have hc' : c = '+' := by simpa using hc
    subst hc'
    exact absurd h (by decide)

/-- A whitespace character is not the quantifier `+`. -/
theorem ws_ne_plus {c : Char} (h : isWS c = true) : (c == '+') = false := by
  cases hc : c == '+'
  · rfl
  · have hc' : c = '+' := by simpa using hc
    subst hc'
    exact absurd h (by decide)

/-- Compiling a run of word characters prepends the corresponding literal
tokens; the remainder must be empty or start with whitespace. -/
theorem parse_word : (w rest : List Char) → (∀ c ∈ w, isWordChar c = true) →
    (rest = [] ∨ ∃ c' t', rest = c' :: t' ∧ isWS c' = true) →
    parseBody (w ++ rest) = (parseBody rest).map (fun ts => w.map RTok.lit ++ ts)
  | [], rest, _, _ => by
    simp only [List.nil_append, List.map_nil]
    cases parseBody rest <;> simp
  | [c], rest, hw, hrest => by
    have hcw : isWordChar c = true := hw c (by simp)
    rcases hrest with rfl | ⟨c', t', rfl, hwsc⟩
    · simp [parseBody, word_not_ws hcw, word_safe hcw]
    · simp [parseBody, word_not_ws hcw, word_safe hcw, ws_ne_plus hwsc]
  | c :: cw :: tw, rest, hw, hrest => by
    have hcw : isWordChar c = true := hw c (by simp)
    have hcw2 : isWordChar cw = true := hw cw (by simp)
    have ih := parse_word (cw :: tw) rest
      (fun x hx => hw x (List.mem_cons_of_mem c hx)) hrest
    rw [List.cons_append]
    simp only [parseBody, word_not_ws hcw, word_safe hcw, word_ne_plus hcw2,
      Bool.false_eq_true, if_false, if_true]
    have ih' : parseBody (cw :: tw.append rest) =
        Option.map (fun ts => List.map RTok.lit (cw :: tw) ++ ts) (parseBody rest) :=
      ih
    rw [ih']
    cases parseBody rest <;> simp

/-- Compiling a whitespace run prepends one `\s+` token; the remainder must
start with a character that is neither whitespace nor `+`. -/
theorem parse_ws : (s tail : List Char) → (∀ c ∈ s, isWS c = true) → s ≠ [] →
    (∃ c' t', tail = c' :: t' ∧ isWS c' = false ∧ (c' == '+') = false) →
    parseBody (s ++ tail) = (parseBody tail).map (fun ts => RTok.wsPlus :: ts)
  | [], _, _, hne, _ => absurd rfl hne
  | [x], tail, hs, _, ⟨c', t', htail, hq1, hq2⟩ => by
    have hx : isWS x = true := hs x (by simp)
    subst htail
    simp [parseBody, hx, hq1, hq2]
  | x :: y :: s', tail, hs, _, hq => by
    have hx : isWS x = true := hs x (by simp)
    have hy : isWS y = true := hs y (by simp)
    have ih := parse_ws (y :: s') tail
      (fun c hc => hs c (List.mem_cons_of_mem x hc)) (by simp) hq
    rw [List.cons_append]
    have ih' : parseBody (y :: s'.append tail) =
        Option.map (fun ts => RTok.wsPlus :: ts) (parseBody tail) := ih
    simpa [parseBody, hx, hy] using ih'

/-- A keyword shape always names a nonempty word list. -/
theorem kwShape_ne_nil {ws : List (List Char)} {cs : List Char}
    (h : KwShape ws cs) : ws ≠ [] := by
  cases h <;> simp

/-- A keyword shape's text starts with a word character. -/
theorem kwShape_head {ws : List (List Char)} {cs : List Char} (h : KwShape ws cs) :
    ∃ c t, cs = c :: t ∧ isWordChar c = true := by
  induction h with
  | single w hw =>
    obtain ⟨c, t, rfl⟩ : ∃ c t, w = c :: t := by
      cases w with
      | nil => exact absurd rfl hw.1
      | cons c t => exact ⟨c, t, rfl⟩
    exact ⟨c, t, rfl, hw.2 c (by simp)⟩
  | cons w s ws' rest hw hs hrest ih =>
    obtain ⟨c, t, rfl⟩ : ∃ c t, w = c :: t := by
      cases w with
      | nil => exact absurd rfl hw.1
      | cons c t => exact ⟨c, t, rfl⟩
    exact ⟨c, t ++ s ++ rest, by simp [List.append_assoc], hw.2 c (by simp)⟩

/-- `phraseToks` on a cons with nonempty tail. -/
theorem phraseToks_cons (w : List Char) (ws : List (List Char)) (h : ws ≠ []) :
    phraseToks (w :: ws) = w.map RTok.lit ++ RTok.wsPlus :: phraseToks ws := by
  cases ws with
  | nil => exact absurd rfl h
  | cons w2 ws' => rfl

/-- The compiler sends a phrase-shaped keyword body to exactly its phrase
tokens. -/
theorem kwShape_parse {ws : List (List Char)} {cs : List Char} (h : KwShape ws cs) :
    parseBody cs = some (phraseToks ws) := by
  induction h with
  | single w hw =>
    have h1 := parse_word w [] hw.2 (Or.inl rfl)
    simpa [parseBody] using h1
  | cons w s ws' rest hw hs hrest ih =>
    obtain ⟨c, t, hrc, hcw⟩ := kwShape_head hrest
    obtain ⟨x, s2, rfl⟩ : ∃ x s2, s = x :: s2 := by
      cases hsc : s with
      | nil => exact absurd hsc hs.1
      | cons x s2 => exact ⟨x, s2, rfl⟩
    have h1 := parse_word w ((x :: s2) ++ rest) hw.2
      (Or.inr ⟨x, s2 ++ rest, by simp, hs.2 x (by simp)⟩)
    have h2 := parse_ws (x :: s2) rest hs.2 (by simp)
      ⟨c, t, hrc, word_not_ws hcw, word_ne_plus hcw⟩
    rw [List.append_assoc, h1, h2, ih,
      phraseToks_cons w ws' (kwShape_ne_nil hrest)]
    simp

/-- Compilation never fails on a keyword whose characters are word
characters or whitespace. -/
theorem parse_safe : (cs : List Char) →
    (∀ c ∈ cs, isWordChar c = true ∨ isWS c = true) →
    (parseBody cs).isSome = true
  | [], _ => by simp [parseBody]
  | [c], h => by
    rcases h c (by simp) with hc | hc
    · simp [parseBody, word_not_ws hc, word_safe hc]
    · simp [parseBody, hc]
  | c :: c2 :: rest, h => by
    have h2 : ∀ x ∈ c2 :: rest, isWordChar x = true ∨ isWS x = true :=
      fun x hx => h x (List.mem_cons_of_mem c hx)
    have hplus : (c2 == '+') = false := by
      rcases h c2 (by simp) with hc2 | hc2
      · exact word_ne_plus hc2
      · exact ws_ne_plus hc2
    have ih := parse_safe (c2 :: rest) h2
    rcases h c (by simp) with hc | hc
    · simp only [parseBody, word_not_ws hc, word_safe hc, hplus,
        Bool.false_eq_true, if_false, if_true]
      cases hp : parseBody (c2 :: rest) <;> simp_all
    · by_cases hc2ws : isWS c2
      · simp only [parseBody, hc, hc2ws, if_true]
        exact ih
      · have hc2ws' : isWS c2 = false := by
          cases hcc : isWS c2
          · rfl
          · exact absurd hcc hc2ws
        simp only [parseBody, hc, hc2ws', hplus, Bool.false_eq_true, if_false,
          if_true]
        cases hp : parseBody (c2 :: rest) <;> simp_all

/-- `runToks` over concatenated token lists. -/
theorem runToks_append (t1 t2 : List RTok) (states : List MState) :
    runToks (t1 ++ t2) states = runToks t2 (runToks t1 states) := by
  induction t1 generalizing states with
  | nil => rfl
  | cons t rest ih => simpa [runToks] using ih (stepTok t states)

/-- `lastOr` over a cons cell. -/
theorem lastOr_cons (prev : Option Char) (c : Char) (w : List Char) :
    lastOr prev (c :: w) = lastOr (some c) w := by
  simp only [lastOr, List.getLast?_cons]
  cases hw : w.getLast? <;> simp [Option.or]

/-- The last element of a nonempty list. -/
theorem getLast?_of_ne_nil {α : Type} {l : List α} (h : l ≠ []) :
    ∃ a, l.getLast? = some a := by
  cases l with
  | nil => exact absurd rfl h
  | cons c t => exact ⟨t.getLast?.getD c, List.getLast?_cons⟩

/-- The last element is a member. -/
theorem getLast?_mem {α : Type} : ∀ {l : List α} {a : α},
    l.getLast? = some a → a ∈ l
  | [], a, h => by simp at h
  | [b], a, h => by
    simp only [List.getLast?_singleton] at h
    injection h with h
    simp [h]
  | b :: c :: t, a, h => by
    rw [List.getLast?_cons_cons] at h
    exact List.mem_cons_of_mem b (getLast?_mem h)

/-- The scan of start positions contains every split point of the subject,
paired with its preceding character. -/
theorem mem_suffixStates (pre : List Char) :
    ∀ (prev : Option Char) (suf : List Char),
      (lastOr prev pre, suf) ∈ suffixStates prev (pre ++ suf) := by
  induction pre with
  | nil =>
    intro prev suf
    cases suf <;> simp [suffixStates, lastOr, Option.or]
  | cons c pre' ih =>
    intro prev suf
    rw [List.cons_append, lastOr_cons]
    simp only [suffixStates]
    exact List.mem_cons_of_mem _ (ih (some c) suf)

/-- A state at a word boundary survives the `\b` token. -/
theorem mem_stepTok_wb {states : List MState} {prev : Option Char} {s : List Char}
    (hmem : (prev, s) ∈ states) (hb : isBoundary prev s.head? = true) :
    (prev, s) ∈ stepTok RTok.wb states := by
  simp only [stepTok]
  exact List.mem_filter.mpr ⟨hmem, hb⟩

/-- A state whose text starts with the literal consumes it. -/
theorem mem_stepTok_lit {states : List MState} {prev : Option Char} {c : Char}
    {xs : List Char} (hmem : (prev, c :: xs) ∈ states) :
    ((some c : Option Char), xs) ∈ stepTok (RTok.lit c) states := by
  simp only [stepTok]
  refine List.mem_filterMap.mpr ⟨(prev, c :: xs), hmem, ?_⟩
  simp

/-- Consuming a whole whitespace run is one of the continuations of a
quantified whitespace token. -/
theorem mem_consumeRun : ∀ {s : List Char} {c : Char} (rest : List Char),
    s.getLast? = some c → (∀ x ∈ s, isWS x = true) →
    ((some c : Option Char), rest) ∈ consumeRun isWS (s ++ rest)
  | [], c, rest, hlast, _ => by simp at hlast
  | [x], c, rest, hlast, hws => by
    have hx : isWS x = true := hws x (by simp)
    simp only [List.getLast?_singleton] at hlast
    simp only [List.cons_append, List.nil_append, consumeRun, hx, if_true]
    simp [hlast.symm]
  | x :: y :: t, c, rest, hlast, hws => by
    have hx : isWS x = true := hws x (by simp)
    rw [List.getLast?_cons_cons] at hlast
    have ih := mem_consumeRun rest hlast
      (fun z hz => hws z (List.mem_cons_of_mem x hz))
    simp only [List.cons_append, consumeRun, hx, if_true]
    exact List.mem_cons_of_mem _ ih

/-- A state whose text starts with a whitespace run reaches the position
after that run through the `\s+` token. -/
theorem mem_stepTok_wsPlus {states : List MState} {prev : Option Char}
    {s rest : List Char} {c : Char}
    (hmem : (prev, s ++ rest) ∈ states)
    (hlast : s.getLast? = some c) (hws : ∀ x ∈ s, isWS x = true) :
    ((some c : Option Char), rest) ∈ stepTok RTok.wsPlus states := by
  simp only [stepTok]
  exact List.mem_flatMap.mpr ⟨(prev, s ++ rest), hmem, mem_consumeRun rest hlast hws⟩

/-- A state whose text starts with a word reaches the position after that
word through the word's literal tokens. -/
theorem mem_runToks_lits : ∀ (w : List Char) (states : List MState)
    (prev : Option Char) (rest : List Char),
    (prev, w ++ rest) ∈ states →
    (lastOr prev w, rest) ∈ runToks (w.map RTok.lit) states
  | [], states, prev, rest, h => by simpa [runToks, lastOr, Option.or] using h
  | c :: w', states, prev, rest, h => by
    rw [lastOr_cons]
    have h1 : ((some c : Option Char), w' ++ rest) ∈ stepTok (RTok.lit c) states :=
      mem_stepTok_lit (by simpa using h)
    have h2 := mem_runToks_lits w' (stepTok (RTok.lit c) states) (some c) rest h1
    simpa [runToks] using h2

/-- A phrase occurrence starts with a word character. -/
theorem occ_head_word {ws : List (List Char)} {mid : List Char}
    (h : PhraseOcc ws mid) :
    ∃ c t, mid = c :: t ∧ isWordChar c = true := by
  induction h with
  | single w hw =>
    obtain ⟨c, t, rfl⟩ : ∃ c t, w = c :: t := by
      cases w with
      | nil => exact absurd rfl hw.1
      | cons c t => exact ⟨c, t, rfl⟩
    exact ⟨c, t, rfl, hw.2 c (by simp)⟩
  | cons w s ws' rest hw hs hrest ih =>
    obtain ⟨c, t, rfl⟩ : ∃ c t, w = c :: t := by
      cases w with
      | nil => exact absurd rfl hw.1
      | cons c t => exact ⟨c, t, rfl⟩
    exact ⟨c, t ++ s ++ rest, by simp [List.append_assoc], hw.2 c (by simp)⟩

/-- A nonempty word list is behind every phrase occurrence. -/
theorem occ_ne_nil {ws : List (List Char)} {mid : List Char}
    (h : PhraseOcc ws mid) : ws ≠ [] := by
  cases h <;> simp

/-- Running the phrase tokens from any state positioned at a phrase
occurrence ends just after the occurrence, on a word character. -/
theorem occ_runToks {ws : List (List Char)} {mid : List Char}
    (h : PhraseOcc ws mid) :
    ∀ (states : List MState) (prev : Option Char) (post : List Char),
      (prev, mid ++ post) ∈ states →
      ∃ c, isWordChar c = true ∧
        ((some c : Option Char), post) ∈ runToks (phraseToks ws) states := by
  induction h with
  | single w hw =>
    intro states prev post hmem
    obtain ⟨c, hlast⟩ := getLast?_of_ne_nil hw.1
    have hl : lastOr prev w = some c := by simp [lastOr, hlast, Option.or]
    have h1 := mem_runToks_lits w states prev post hmem
    rw [hl] at h1
    exact ⟨c, hw.2 c (getLast?_mem hlast), h1⟩
  | cons w s ws' rest hw hs hrest ih =>
    intro states prev post hmem
    have hmem' : (prev, w ++ (s ++ (rest ++ post))) ∈ states := by
      simpa [List.append_assoc] using hmem
    have h1 := mem_runToks_lits w states prev (s ++ (rest ++ post)) hmem'
    obtain ⟨cs', hlast⟩ := getLast?_of_ne_nil hs.1
    have h2 := mem_stepTok_wsPlus h1 hlast hs.2
    obtain ⟨c, hcw, hc⟩ := ih
      (stepTok RTok.wsPlus (runToks (w.map RTok.lit) states)) (some cs') post h2
    refine ⟨c, hcw, ?_⟩
    rw [phraseToks_cons w ws' (occ_ne_nil hrest), runToks_append]
    simpa [runToks] using hc

/-- The compiled pattern of a phrase accepts any subject containing a
whole-phrase occurrence of it with word boundaries on both sides. -/
theorem regexTest_phrase (ws : List (List Char)) (pre mid post : List Char)
    (hocc : PhraseOcc ws mid)
    (hpre : optIsWord pre.getLast? = false)
    (hpost : optIsWord post.head? = false) :
    regexTest (RTok.wb :: phraseToks ws ++ [RTok.wb]) (pre ++ mid ++ post) = true := by
  obtain ⟨cm, tm, hmid, hcm⟩ := occ_head_word hocc
  have h0 : (lastOr none pre, mid ++ post) ∈
      suffixStates none (pre ++ (mid ++ post)) :=
    mem_suffixStates pre none (mid ++ post)
  have hprev : optIsWord (lastOr none pre) = false := by
    simpa [lastOr, Option.or_none] using hpre
  have hb0 : isBoundary (lastOr none pre) (mid ++ post).head? = true := by
    rw [hmid]
    have hh : optIsWord (some cm) = true := by simp [optIsWord, hcm]
    simp [isBoundary, hprev, hh]
  have h1 : (lastOr none pre, mid ++ post) ∈
      stepTok RTok.wb (suffixStates none (pre ++ (mid ++ post))) :=
    mem_stepTok_wb h0 hb0
  obtain ⟨c, hcw, hc⟩ := occ_runToks hocc
    (stepTok RTok.wb (suffixStates none (pre ++ (mid ++ post)))) (lastOr none pre)
    post h1
  have h2 : ((some c : Option Char), post) ∈
      stepTok RTok.wb (runToks (phraseToks ws)
        (stepTok RTok.wb (suffixStates none (pre ++ (mid ++ post))))) := by
    apply mem_stepTok_wb hc
    have hh : optIsWord ((some c : Option Char)) = true := by simp [optIsWord, hcw]
    simp [isBoundary, hh, hpost]
  have hrun : runToks (RTok.wb :: phraseToks ws ++ [RTok.wb])
      (suffixStates none (pre ++ (mid ++ post))) =
      stepTok RTok.wb (runToks (phraseToks ws)
        (stepTok RTok.wb (suffixStates none (pre ++ (mid ++ post))))) := by
    rw [show RTok.wb :: phraseToks ws ++ [RTok.wb] =
      (RTok.wb :: phraseToks ws) ++ [RTok.wb] from rfl, runToks_append]
    simp [runToks]
  rw [List.append_assoc]
  simp only [regexTest, hrun]
  have hne2 := List.ne_nil_of_mem h2
  cases hE : (stepTok RTok.wb (runToks (phraseToks ws)
      (stepTok RTok.wb (suffixStates none (pre ++ (mid ++ post)))))).isEmpty
  · simp
  · exact absurd (List.isEmpty_iff.mp hE) hne2

/-- The phrase-shaped keyword compiles to its phrase tokens wrapped in the
two boundary assertions. -/
theorem buildPattern_of_kwShape {kw : String} {ws : List (List Char)}
    (h : KwShape ws (kw.data.map Char.toLower)) :
    buildPattern kw = some (RTok.wb :: phraseToks ws ++ [RTok.wb]) := by
  simp [buildPattern, kwShape_parse h]

/-- A keyword lower-casing to word characters and whitespace always
compiles. -/
theorem buildPattern_safe {kw : String}
    (h : ∀ c ∈ kw.data.map Char.toLower, isWordChar c = true ∨ isWS c = true) :
    (buildPattern kw).isSome = true := by
  have h1 := parse_safe (kw.data.map Char.toLower) h
  cases hp : parseBody (kw.data.map Char.toLower) with
  | none => rw [hp] at h1; simp at h1
  | some toks => simp [buildPattern, hp]

/-- The keyword loop answers `true` when one of the keywords matches,
provided every keyword up to it compiles. -/
theorem someMatch_ok_true : ∀ (kws : List String) (text : List Char) (kw : String),
    kw ∈ kws →
    (∀ k ∈ kws, (buildPattern k).isSome = true) →
    (∀ toks, buildPattern kw = some toks → regexTest toks text = true) →
    someMatch kws text = Except.ok true
  | [], _, _, hmem, _, _ => absurd hmem (by simp)
  | k :: rest, text, kw, hmem, hparse, htest => by
    obtain ⟨toks, htoks⟩ : ∃ toks, buildPattern k = some toks := by
      have h1 := hparse k (by simp)
      cases hp : buildPattern k with
      | none => rw [hp] at h1; simp at h1
      | some toks => exact ⟨toks, rfl⟩
    rcases List.mem_cons.mp hmem with rfl | hmem'
    · have h2 := htest toks htoks
      simp [someMatch, htoks, h2]
    · by_cases ht : regexTest toks text
      · simp [someMatch, htoks, ht]
      · have ih := someMatch_ok_true rest text kw hmem'
          (fun k' hk' => hparse k' (List.mem_cons_of_mem k hk')) htest
        simpa [someMatch, htoks, ht] using ih

/-- C2 amended: with an enabled policy, no `!local` directive, and privacy
keywords that lower-case to words of word characters separated by
whitespace, a whole-phrase occurrence of one of those keywords in the
joined lower-cased conversation text — with a word boundary on each side —
forces the privacy-local decision. -/
theorem privacy_phrase_routes_local (msgs : List NewMessage) (cfg : RoutingConfig)
    (kw : String) (ws : List (List Char))
    (hne : msgs ≠ []) (hen : cfg.enabled = true)
    (hforced : localDirective (mentionStripped msgs).data = false)
    (hsafe : ∀ k ∈ cfg.routing.privacyKeywords,
      ∀ c ∈ k.data.map Char.toLower, isWordChar c = true ∨ isWS c = true)
    (hmem : kw ∈ cfg.routing.privacyKeywords)
    (hshape : KwShape ws (kw.data.map Char.toLower))
    (hocc : ∃ pre mid post, allText msgs = pre ++ mid ++ post ∧
      PhraseOcc ws mid ∧ optIsWord pre.getLast? = false ∧
      optIsWord post.head? = false) :
    classifyMessages msgs (some cfg) = Except.ok RouteDecision.ollamaPrivacy := by
  obtain ⟨pre, mid, post, heq, hoccp, hpre, hpost⟩ := hocc
  have hbuild := buildPattern_of_kwShape hshape
  have htest : ∀ toks, buildPattern kw = some toks →
      regexTest toks (allText msgs) = true := by
    intro toks htoks
    rw [hbuild] at htoks
    injection htoks with htoks
    subst htoks
    rw [heq]
    exact regexTest_phrase ws pre mid post hoccp hpre hpost
  have hpriv : hasPrivacyKeywordE msgs cfg.routing.privacyKeywords =
      Except.ok true := by
    unfold hasPrivacyKeywordE
    exact someMatch_ok_true cfg.routing.privacyKeywords (allText msgs) kw hmem
      (fun k hk => buildPattern_safe (hsafe k hk)) htest
  simp [classifyMessages, hen, hforced, hpriv]

/-- C2 amended witness: the spec's social-security example. -/
theorem privacy_phrase_routes_local_witness :
    KwShape [("social" : String).data, ("security" : String).data]
        (("social security" : String).data.map Char.toLower) ∧
      (∃ pre mid post,
        allText [⟨"@Andy my social security number is 123", false, false⟩] =
          pre ++ mid ++ post ∧
        PhraseOcc [("social" : String).data, ("security" : String).data] mid ∧
        optIsWord pre.getLast? = false ∧ optIsWord post.head? = false) ∧
      classifyMessages [⟨"@Andy my social security number is 123", false, false⟩]
          (some ⟨true, ⟨"http://localhost:11434", 30000, ⟨"s", "g", "r"⟩⟩,
            ⟨6, ["social security"], ["what"]⟩⟩) =
        Except.ok RouteDecision.ollamaPrivacy := by
  have hshape : KwShape [("social" : String).data, ("security" : String).data]
      (("social security" : String).data.map Char.toLower) := by
    rw [show (("social security" : String).data.map Char.toLower) =
      ("social" : String).data ++ [' '] ++ ("security" : String).data from by decide]
    exact KwShape.cons _ _ _ _ (by decide) (by decide)
      (KwShape.single _ (by decide))
  have hocc : ∃ pre mid post,
      allText [⟨"@Andy my social security number is 123", false, false⟩] =
        pre ++ mid ++ post ∧
      PhraseOcc [("social" : String).data, ("security" : String).data] mid ∧
      optIsWord pre.getLast? = false ∧ optIsWord post.head? = false := by
    refine ⟨("@andy my " : String).data,
      ("social" : String).data ++ [' '] ++ ("security" : String).data,
      (" number is 123" : String).data, by decide, ?_, by decide, by decide⟩
    exact PhraseOcc.cons _ _ _ _ (by decide) (by decide)
      (PhraseOcc.single _ (by decide))
  exact ⟨hshape, hocc,
    privacy_phrase_routes_local
      [⟨"@Andy my social security number is 123", false, false⟩]
      ⟨true, ⟨"http://localhost:11434", 30000, ⟨"s", "g", "r"⟩⟩,
        ⟨6, ["social security"], ["what"]⟩⟩
      "social security" [("social" : String).data, ("security" : String).data]
      (by decide) rfl (by decide)
      (by intro k hk
          have hk' : k = "social security" := by simpa using hk
          subst hk'
          decide)
      (by simp) hshape hocc⟩

/-- C2 counterexample: the keyword `a+b` occurs literally, as a whole
phrase with word boundaries, in the conversation text, yet the decision is
not privacy-local — the unescaped `+` is read as a quantifier, so the
compiled pattern `\ba+b\b` does not match the literal text `a+b`. -/
theorem privacy_metachar_cex :
    specWholeOcc (("a+b" : String).data.map Char.toLower)
        (allText [⟨"my a+b thing", false, false⟩]) ∧
      localDirective (mentionStripped
        [⟨"my a+b thing", false, false⟩]).data = false ∧
      classifyMessages [⟨"my a+b thing", false, false⟩]
          (some ⟨true, ⟨"http://localhost:11434", 30000, ⟨"s", "g", "r"⟩⟩,
            ⟨6, ["a+b"], ["what"]⟩⟩) = Except.ok RouteDecision.claude ∧
      Except.ok RouteDecision.claude ≠
        (Except.ok RouteDecision.ollamaPrivacy : Except Unit RouteDecision) :=
  ⟨⟨("my " : String).data, (" thing" : String).data, by decide, by decide,
    by decide⟩, by decide, by decide, by decide⟩

end Nanoclaw
